import Mathlib

/-!
Verification development for the saurus MITM proxy session pipeline.

The definitions below are a shallow embedding of the TypeScript source:
the `Session` class (reliability layer, split reassembly, outbound
fragmentation, handshake interception, event-bus guards), the `Datagram`
codec, and the Node encrypt helper.  Byte arrays are modelled as
`List Nat`, JS `Set<number>` as `Finset Nat`, sparse slot tables as
`List (Option SplitMemory)`, and fallible code returns `Except`/`Option`.
-/

namespace Saurus

/-- Origin of a byte stream: the endpoint it was received from. -/
inductive Origin
  | client
  | server
deriving DecidableEq, Repr

/-- Source: `opposite(origin)` toggles client/server. -/
def opposite (o : Origin) : Origin :=
  match o with
  | .client => .server
  | .server => .client

/-- Session states, source enum `SessionState`. -/
inductive SessionState
  | Offline
  | Online
  | Encrypted
deriving DecidableEq, Repr

/-- Byte sequences; each entry is one byte (0..255 where it matters). -/
abbrev Bytes := List Nat

/-- Split descriptor carried by a fragmented encapsulated packet. -/
structure SplitDesc where
  id : Nat
  index : Nat
  count : Nat
deriving DecidableEq, Repr

/-- Source `EncapsulatedPacket` record (codec-independent fields). -/
structure EncapsulatedPacket where
  reliability : Nat
  index : Option Nat := none
  sequence : Option Nat := none
  order : Option Nat := none
  split : Option SplitDesc := none
  sub : Bytes := []
deriving DecidableEq, Repr

/-- Source `SplitMemory`: `{id, packets}`. -/
structure SplitMemory where
  id : Nat
  packets : List EncapsulatedPacket
deriving DecidableEq, Repr

/-- Source helper `insert(array, i, value) = array.splice(i, 0, value)`.
JS `splice` clamps the start position to the array length, so inserting
past the end appends. -/
def insert' (l : List EncapsulatedPacket) (i : Nat) (v : EncapsulatedPacket) :
    List EncapsulatedPacket :=
  match l, i with
  | [], _ => [v]
  | x :: xs, 0 => v :: x :: xs
  | x :: xs, n + 1 => x :: insert' xs n v

/-- First pass of `memoryOf`: `splits.findIndex((m) => m?.id === id)`,
returning the slot index together with the memory found there. -/
def findMemoryIdx : List (Option SplitMemory) → Nat → Option (Nat × SplitMemory)
  | [], _ => none
  | none :: rest, id => (findMemoryIdx rest id).map (fun p => (p.1 + 1, p.2))
  | some m :: rest, id =>
      if m.id = id then some (0, m)
      else (findMemoryIdx rest id).map (fun p => (p.1 + 1, p.2))

/-- Second pass of `memoryOf`: `splits.findIndex((m) => !m)`. -/
def findEmptyIdx : List (Option SplitMemory) → Option Nat
  | [] => none
  | none :: _ => some 0
  | some _ :: rest => (findEmptyIdx rest).map (· + 1)

/-- Source `Session.memoryOf`: resolve a reassembly slot for split set `id`:
first match by id (table unchanged), else first empty slot (freshly
allocated), else fail with the "Too many split packets" error.  The updated
table is threaded explicitly since the source mutates `splits` in place. -/
def memoryOf (splits : List (Option SplitMemory)) (id : Nat) :
    Except String ((Nat × SplitMemory) × List (Option SplitMemory)) :=
  match findMemoryIdx splits id with
  | some (slot, mem) => .ok ((slot, mem), splits)
  | none =>
    match findEmptyIdx splits with
    | none => .error "Too many split packets"
    | some slot =>
      let memory : SplitMemory := { id := id, packets := [] }
      .ok ((slot, memory), splits.set slot (some memory))

/-- Source reliable window `{start, end}` (initially `{0, 2048}`). -/
structure Window where
  start : Nat
  end_ : Nat
deriving DecidableEq, Repr

/-- Source `inRange(n, [start, end]) = n >= start && n <= end`. -/
def inRange (n : Nat) (start end_ : Nat) : Bool :=
  decide (n ≥ start) && decide (n ≤ end_)

/-- The window-advance loop of `Session.handlePacket`:

`const { start } = window; while (indexes.has(start)) { indexes.delete(start);
window.start++; window.end++ }`

`start0` is the destructured `const start`, which the loop condition and the
`delete` use; only the `window` fields are incremented. -/
def slideLoop (indexes : Finset Nat) (window : Window) (start0 : Nat) :
    Finset Nat × Window :=
  if h : start0 ∈ indexes then
    slideLoop (indexes.erase start0) ⟨window.start + 1, window.end_ + 1⟩ start0
  else (indexes, window)
termination_by indexes.card
decreasing_by exact Finset.card_erase_lt_of_mem h

/-- Outcome of the reliable-index section of `handlePacket`. -/
inductive ReliableOutcome
  | noIndexError
  | droppedOutOfWindow
  | duplicateError
  | admitted (window : Window) (indexes : Finset Nat)
deriving DecidableEq

/-- The reliable-index section of `Session.handlePacket` (lines 222-252),
acting on the per-origin window and received-index set. -/
def handleReliable (window : Window) (indexes : Finset Nat)
    (index : Option Nat) : ReliableOutcome :=
  match index with
  | none => .noIndexError
  | some i =>
    if !(inRange i window.start window.end_) then .droppedOutOfWindow
    else if i ∈ indexes then .duplicateError
    else
      let indexes1 := Insert.insert i indexes
      if i = window.start then
        let r := slideLoop indexes1 window window.start
        .admitted r.2 r.1
      else .admitted window indexes1

/-- Outcome of the split-reassembly section of `handlePacket`. -/
inductive SplitOutcome
  | errTooMany
  | droppedDup (splits : List (Option SplitMemory))
  | stored (splits : List (Option SplitMemory))
  | completed (splits : List (Option SplitMemory)) (packet : EncapsulatedPacket)
deriving DecidableEq

/-- The split-reassembly section of `Session.handlePacket` (lines 254-277):
resolve a slot with `memoryOf`; drop if `packets[index]` is already present
(on the dense JS array this means `index < packets.length`); otherwise
`insert` (splice) the fragment; on `packets.length === count` concatenate
the stored subs in storage order into `packet.sub`, clear the split
descriptor, and free the slot (`delete splits[slot]`). -/
def handleSplitStep (splits : List (Option SplitMemory))
    (packet : EncapsulatedPacket) (desc : SplitDesc) : SplitOutcome :=
  match memoryOf splits desc.id with
  | .error _ => .errTooMany
  | .ok ((slot, mem), splits1) =>
    if desc.index < mem.packets.length then .droppedDup splits1
    else
      let packets1 := insert' mem.packets desc.index packet
      let splits2 := splits1.set slot (some { mem with packets := packets1 })
      if packets1.length ≠ desc.count then .stored splits2
      else
        let sub := (packets1.map (fun p => p.sub)).flatten
        .completed (splits2.set slot none)
          { packet with sub := sub, split := none }

/-- Sequential delivery of encapsulated packets into the split table,
collecting the packets that complete a reassembly.  A packet without a
split descriptor passes through complete.  This is the split section of
`handlePacket` iterated over a fragment sequence. -/
def deliverSplitList (splits : List (Option SplitMemory)) :
    List EncapsulatedPacket →
    Except String (List (Option SplitMemory) × List EncapsulatedPacket)
  | [] => .ok (splits, [])
  | p :: rest =>
    match p.split with
    | none =>
      match deliverSplitList splits rest with
      | .error e => .error e
      | .ok (s, done) => .ok (s, p :: done)
    | some desc =>
      match handleSplitStep splits p desc with
      | .errTooMany => .error "Too many split packets"
      | .droppedDup s =>
        deliverSplitList s rest
      | .stored s =>
        deliverSplitList s rest
      | .completed s q =>
        match deliverSplitList s rest with
        | .error e => .error e
        | .ok (s2, done) => .ok (s2, q :: done)

/-- Per-session mutable state of the source `Session` class (the fields the
reliability layer reads and writes). -/
structure SessionSt where
  _mtuSize : Nat := 1492
  _serverSplits : List (Option SplitMemory) := [none, none, none, none]
  _clientSplits : List (Option SplitMemory) := [none, none, none, none]
  _serverSplitID : Nat := 0
  _clientSplitID : Nat := 0
  _serverPacketIndex : Nat := 0
  _clientPacketIndex : Nat := 0
  _clientReliableWindow : Window := ⟨0, 2048⟩
  _serverReliableWindow : Window := ⟨0, 2048⟩
  _clientPacketIndexes : Finset Nat := ∅
  _serverPacketIndexes : Finset Nat := ∅
  _serverSeqNumber : Nat := 0
  _clientSeqNumber : Nat := 0
deriving DecidableEq

/-- Source `Datagram.flag_valid = 0x80`. -/
def flag_valid : Nat := 0x80

/-- An observable output of the session toward one endpoint: either an
ACK (from `sendAck`) or a datagram wrapping one encapsulated packet
(from `sendPacket` via `sendDatagram`). -/
inductive OutEvent
  | ackOut (seqNumbers : List Nat) (dest : Origin)
  | datagramOut (headerFlags : Nat) (seqNumber : Nat)
      (packet : EncapsulatedPacket) (dest : Origin)
deriving DecidableEq

/-- Whether an output event is an ACK. -/
def isAckEvent : OutEvent → Bool
  | .ackOut _ _ => true
  | .datagramOut _ _ _ _ => false

/-- The sub-payload carried by an output event. -/
def evSub : OutEvent → Bytes
  | .ackOut _ _ => []
  | .datagramOut _ _ p _ => p.sub

/-- Fragment sizes produced by the `for (let i = 0; i <= quotient; i++)`
loop of `Session.sendPacket`: `quotient` fragments of `maxSize` bytes and a
final fragment of `remainder` bytes. -/
def fragSizes (length maxSize : Nat) : List Nat :=
  (List.range (length / maxSize + 1)).map fun i =>
    if i = length / maxSize then length % maxSize else maxSize

/-- Successive `buffer.readArray(size)` reads over a byte buffer. -/
def readChunks : Bytes → List Nat → List Bytes
  | _, [] => []
  | b, s :: rest => b.take s :: readChunks (b.drop s) rest

/-- The send loop of `Session.sendPacket`: stamp each fragment with the
shared split descriptor (index updated per fragment), a fresh per-direction
`packetIndex`, wrap in a `Datagram` with `flag_valid` and a fresh
per-direction `seqNumber`, and send. -/
def sendLoop (st : SessionSt) (reliability : Nat)
    (sequence order : Option Nat) (splitBase : Option (Nat × Nat))
    (dest : Origin) : List (Nat × Bytes) → SessionSt × List OutEvent
  | [] => (st, [])
  | (i, sub) :: rest =>
    let split : Option SplitDesc :=
      splitBase.map (fun p => { count := p.1, id := p.2, index := i })
    let index := match dest with
      | .client => st._clientPacketIndex
      | .server => st._serverPacketIndex
    let st1 := match dest with
      | .client => { st with _clientPacketIndex := st._clientPacketIndex + 1 }
      | .server => { st with _serverPacketIndex := st._serverPacketIndex + 1 }
    let packet : EncapsulatedPacket :=
      { reliability := reliability, sub := sub, index := some index,
        sequence := sequence, order := order, split := split }
    let seqNumber := match dest with
      | .client => st1._clientSeqNumber
      | .server => st1._serverSeqNumber
    let st2 := match dest with
      | .client => { st1 with _clientSeqNumber := st1._clientSeqNumber + 1 }
      | .server => { st1 with _serverSeqNumber := st1._serverSeqNumber + 1 }
    let r := sendLoop st2 reliability sequence order splitBase dest rest
    (r.1, .datagramOut flag_valid seqNumber packet dest :: r.2)

/-- Source `Session.sendPacket` (lines 290-343): re-fragment the payload to
`mtuSize - 60`, allocate a split id (post-increment, mod 2^16) when more
than one fragment results, and emit one datagram per fragment. -/
def sendPacket (st : SessionSt) (packet : EncapsulatedPacket) (dest : Origin) :
    SessionSt × List OutEvent :=
  let length := packet.sub.length
  let maxSize := st._mtuSize - 60
  let buffers := readChunks packet.sub (fragSizes length maxSize)
  let alloc : Option (Nat × Nat) × SessionSt :=
    if buffers.length > 1 then
      match dest with
      | .client =>
        (some (buffers.length, st._clientSplitID % 65536),
          { st with _clientSplitID := st._clientSplitID + 1 })
      | .server =>
        (some (buffers.length, st._serverSplitID % 65536),
          { st with _serverSplitID := st._serverSplitID + 1 })
    else (none, st)
  sendLoop alloc.2 packet.reliability packet.sequence packet.order alloc.1 dest
    buffers.enum

/-- Modelled from the spec: the `isReliable(r)` predicate of the protocol
module (not under src/) returns true for reliability kinds {2,3,4,6,7}. -/
def isReliable (r : Nat) : Bool :=
  r = 2 || r = 3 || r = 4 || r = 6 || r = 7

/-- Source `BatchPacket.id = 0xFE` (spec section 4.2; the packet module is
not under src/, only the id value is needed here). -/
def BatchPacket.id : Nat := 0xFE

/-- Per-origin read access used by `handlePacket`'s ternaries. -/
def windowOf (st : SessionSt) (o : Origin) : Window :=
  match o with
  | .client => st._clientReliableWindow
  | .server => st._serverReliableWindow

/-- Per-origin received-index set. -/
def indexesOf (st : SessionSt) (o : Origin) : Finset Nat :=
  match o with
  | .client => st._clientPacketIndexes
  | .server => st._serverPacketIndexes

/-- Per-origin split table. -/
def splitsOf (st : SessionSt) (o : Origin) : List (Option SplitMemory) :=
  match o with
  | .client => st._clientSplits
  | .server => st._serverSplits

/-- Write back the per-origin window and index set. -/
def setReliable (st : SessionSt) (o : Origin) (w : Window) (s : Finset Nat) :
    SessionSt :=
  match o with
  | .client => { st with _clientReliableWindow := w, _clientPacketIndexes := s }
  | .server => { st with _serverReliableWindow := w, _serverPacketIndexes := s }

/-- Write back the per-origin split table. -/
def setSplits (st : SessionSt) (o : Origin) (v : List (Option SplitMemory)) :
    SessionSt :=
  match o with
  | .client => { st with _clientSplits := v }
  | .server => { st with _serverSplits := v }

/-- Source `Session.handlePacket`: reliable-window admission, split
reassembly, batch unwrap/re-pack (abstracted as `bt`, since compression and
ciphers are external collaborators), then `sendPacket` toward the opposite
origin.  Early `return`s yield the state reached so far with no output
events; thrown errors surface as `Except.error`. -/
def handlePacket (bt : Origin → Bytes → Bytes) (st : SessionSt)
    (packet : EncapsulatedPacket) (o : Origin) :
    Except String (SessionSt × List OutEvent) :=
  let rel :=
    if isReliable packet.reliability then
      handleReliable (windowOf st o) (indexesOf st o) packet.index
    else .admitted (windowOf st o) (indexesOf st o)
  match rel with
  | .noIndexError => .error "No index"
  | .duplicateError => .error "Duplicate packet index"
  | .droppedOutOfWindow => .ok (st, [])
  | .admitted w s =>
    let st1 := setReliable st o w s
    let afterSplit : Except String (SessionSt × Option EncapsulatedPacket) :=
      match packet.split with
      | none => .ok (st1, some packet)
      | some desc =>
        match handleSplitStep (splitsOf st1 o) packet desc with
        | .errTooMany => .error "Too many split packets"
        | .droppedDup v => .ok (setSplits st1 o v, none)
        | .stored v => .ok (setSplits st1 o v, none)
        | .completed v q => .ok (setSplits st1 o v, some q)
    match afterSplit with
    | .error e => .error e
    | .ok (st2, none) => .ok (st2, [])
    | .ok (st2, some p2) =>
      let p3 :=
        if p2.sub.head? = some BatchPacket.id then
          { p2 with sub := bt o p2.sub }
        else p2
      .ok (sendPacket st2 p3 (opposite o))

/-- Source `Datagram`: header flags, 24-bit LE sequence number, and the
contained encapsulated packets. -/
structure Datagram where
  headerFlags : Nat := 0
  seqNumber : Nat := 0
  packets : List EncapsulatedPacket := []
deriving DecidableEq, Repr

/-- The `for (const packet of datagram.packets)` loop of
`Session.handleDatagram`: process each encapsulated packet in order,
accumulating output events; a thrown error aborts the loop but the events
already emitted remain. -/
def handlePackets (bt : Origin → Bytes → Bytes) (st : SessionSt) :
    List EncapsulatedPacket → Origin → List OutEvent × Except String SessionSt
  | [], _ => ([], .ok st)
  | p :: rest, o =>
    match handlePacket bt st p o with
    | .error e => ([], .error e)
    | .ok (st1, evs) =>
      let r := handlePackets bt st1 rest o
      (evs ++ r.1, r.2)

/-- Source `Session.handleDatagram` (lines 208-215): first `sendAck` an ACK
carrying the datagram's single sequence number back to the origin it came
from, then handle each encapsulated packet. -/
def handleDatagram (bt : Origin → Bytes → Bytes) (st : SessionSt)
    (d : Datagram) (o : Origin) : List OutEvent × Except String SessionSt :=
  let r := handlePackets bt st d.packets o
  (.ackOut [d.seqNumber] o :: r.1, r.2)

/-! ### Datagram byte codec (claim C9)

`Datagram.from`/`Datagram.to` are under src/; the `Buffer` primitives and
the `EncapsulatedPacket` codec are not, so those are modelled from the
spec. -/

/-- Modelled from the spec: `Buffer.readByte` (spec section 4.1); short
reads fail. -/
def readByte : Bytes → Option (Nat × Bytes)
  | [] => none
  | b :: rest => some (b, rest)

/-- Modelled from the spec: `Buffer.readLTriad`, a 24-bit little-endian
integer (spec section 4.1). -/
def readLTriad : Bytes → Option (Nat × Bytes)
  | b0 :: b1 :: b2 :: rest => some (b0 + 256 * b1 + 65536 * b2, rest)
  | _ => none

/-- Modelled from the spec: `Buffer.writeByte`. -/
def writeByte (n : Nat) : Bytes := [n % 256]

/-- Modelled from the spec: `Buffer.writeLTriad` (24-bit little-endian). -/
def writeLTriad (n : Nat) : Bytes := [n % 256, n / 256 % 256, n / 65536 % 256]

/-- The `while (buffer.remaining) packets.push(EncapsulatedPacket.from(buffer))`
loop of `Datagram.from`, parameterized over the `EncapsulatedPacket.from`
codec (not under src/).  The fuel argument bounds the iteration count; the
caller passes the buffer length, which suffices whenever the packet codec
consumes at least one byte per packet. -/
def parsePackets (parse : Bytes → Option (EncapsulatedPacket × Bytes)) :
    Nat → Bytes → Option (List EncapsulatedPacket)
  | _, [] => some []
  | 0, _ :: _ => none
  | fuel + 1, b =>
    match parse b with
    | none => none
    | some (p, rest) => (parsePackets parse fuel rest).map (fun ps => p :: ps)

/-- Source `Datagram.from`: read the flags byte and the LE-triad sequence
number, then parse encapsulated packets while bytes remain. -/
def datagramFrom (parse : Bytes → Option (EncapsulatedPacket × Bytes))
    (bytes : Bytes) : Option Datagram :=
  match readByte bytes with
  | none => none
  | some (headerFlags, r1) =>
    match readLTriad r1 with
    | none => none
    | some (seqNumber, r2) =>
      (parsePackets parse r2.length r2).map
        (fun packets => ⟨headerFlags, seqNumber, packets⟩)

/-- Source `Datagram.to`: note the serializer writes
`Datagram.flag_valid | this.headerFlags`, forcing bit 0x80 on. -/
def datagramTo (ser : EncapsulatedPacket → Bytes) (d : Datagram) : Bytes :=
  writeByte (flag_valid ||| d.headerFlags) ++ writeLTriad d.seqNumber ++
    (d.packets.map ser).flatten

/-! ### Batch crypto handover (claims C4, C5) -/

/-- Key pair returned by `genKeyPair()` (external collaborator); the key
material is opaque here. -/
structure KeyPair where
  privateKey : String
  publicKey : String
deriving DecidableEq, Repr

/-- JWT payload fields the proxy reads or writes. -/
structure JWTPayload where
  salt : String := ""
  identityPublicKey : String := ""
deriving DecidableEq, Repr

/-- JWT header fields the proxy reads. -/
structure JWTHeader where
  x5u : String := ""
deriving DecidableEq, Repr

/-- A parsed JWT: header, payload, signature. -/
structure JWT where
  header : JWTHeader := {}
  payload : JWTPayload := {}
  signature : String := ""
deriving DecidableEq, Repr

/-- Arguments of the external `diffieHellman` primitive. -/
structure DHArgs where
  privateKey : String
  publicKey : String
  salt : String
deriving DecidableEq, Repr

/-- `token.sign(keyPair)` rewrites the signature; the signing primitive is
an external collaborator, passed in as `sig`. -/
def signJWT (sig : KeyPair → JWTHeader × JWTPayload → String) (kp : KeyPair)
    (t : JWT) : JWT :=
  { t with signature := sig kp (t.header, t.payload) }

/-- Source `EncryptedBatchPacket(secret, origin)`: a direction-specific
batch codec determined by the shared secret and the origin whose key
agreement produced it. -/
structure BatchCodec where
  secret : Bytes
  codecOrigin : Origin
deriving DecidableEq, Repr

/-- The codec factory call `EncryptedBatchPacket(secret, origin)`. -/
def EncryptedBatchPacket (secret : Bytes) (o : Origin) : BatchCodec :=
  ⟨secret, o⟩

/-- The session fields touched by the Login/Handshake interception. -/
structure CryptoSt where
  _keyPair : Option KeyPair := none
  _salt : String := ""
  _clientBatch : Option BatchCodec := none
  _serverBatch : Option BatchCodec := none
  _state : SessionState := .Online
deriving DecidableEq, Repr

/-- Source `Session.handleHandshakePacket` (lines 413-431): derive the
server-side shared secret from the proxy's stored key pair, the server's
`x5u` public key and the server's salt; store `serverBatch`; overwrite the
token's payload salt with the `_salt` stored at Login; re-sign with the
proxy key pair; set the state to Encrypted; re-serialize.  The source reads
`this._keyPair!!`, which crashes when no Login was intercepted; that case
is the `Except.error`. -/
def handleHandshakePacket (dh : DHArgs → Bytes)
    (sig : KeyPair → JWTHeader × JWTPayload → String) (st : CryptoSt)
    (handshake : JWT) : Except String (CryptoSt × JWT) :=
  match st._keyPair with
  | none => .error "keyPair undefined"
  | some keyPair =>
    let privateKey := keyPair.privateKey
    let publicKey := handshake.header.x5u
    let salt := handshake.payload.salt
    let secret := dh ⟨privateKey, publicKey, salt⟩
    let st1 := { st with _serverBatch := some (EncryptedBatchPacket secret .server) }
    let token1 := { handshake with payload := { handshake.payload with salt := st1._salt } }
    let token2 := signJWT sig keyPair token1
    let st2 := { st1 with _state := .Encrypted }
    .ok (st2, token2)

/-- A Node cipher object as the encrypt helper uses it:
`update(data)`, `final()` and `getAuthTag()`. -/
structure NodeCipher where
  update : Bytes → Bytes
  final : Bytes
  getAuthTag : Bytes

/-- A line request of the Node encrypt helper: `{data, secret}` with the
secret base64-encoded. -/
structure EncryptRequest where
  data : Bytes
  secret : String

/-- Source `src/node/src/encrypt.ts` line handler: decode the base64
secret, take its first 16 bytes as IV, create an `aes-256-gcm` cipher
keyed with (secret, iv), and output `update(data) ++ final()`.  The cipher
factory and base64 decoder are external collaborators passed in. -/
def encryptLine (createCipheriv : Bytes → Bytes → NodeCipher)
    (fromB64 : String → Bytes) (req : EncryptRequest) : Bytes :=
  let secret := fromB64 req.secret
  let iv := secret.take 16
  let cipher := createCipheriv secret iv
  cipher.update req.data ++ cipher.final

/-! ### Bedrock dispatch (claim C6) -/

/-- Modelled from the spec: the numeric `LoginPacket.id` is not under src/;
only its distinctness from other inspected ids matters here. -/
def LoginPacket.id : Nat := 0x01

/-- Source `ServerToClientHandshakePacket.id = 0x03`
(src/saurus/protocol/bedrock/handshake.ts). -/
def ServerHandshakePacket.id : Nat := 0x03

/-- Modelled from the spec: `ResourcePackResponse.id` is not under src/;
only its distinctness from `LoginPacket.id` matters here. -/
def ResourcePackResponse.id : Nat := 0x08

/-- What `Session.handleBedrock` does with an inspected bedrock packet. -/
inductive BedrockAction
  | interceptLogin
  | interceptHandshake
  | passthrough
deriving DecidableEq, Repr

/-- Source `Session.handleBedrock` (lines 388-411): dispatch on the origin
and the bedrock packet id.  The function consults no session state: a
Login from the client is always intercepted, a ServerHandshake from the
server is always intercepted, everything else (including a
ResourcePackResponse, which is only logged) passes through. -/
def handleBedrockAction (o : Origin) (id : Nat) : BedrockAction :=
  match o with
  | .client =>
    if id = LoginPacket.id then .interceptLogin else .passthrough
  | .server =>
    if id = ServerHandshakePacket.id then .interceptHandshake else .passthrough

/-- Source `Session.handleBatch` (lines 345-351) dispatches on the state
only to pick the codec (`handleEncryptedBatch` when Encrypted, otherwise
`handleUnencryptedBatch`); both branches run `handleBedrock` on every inner
packet, so the inspection action reaching a bedrock packet of id `id` is
state-independent. -/
def batchBedrockAction (state : SessionState) (o : Origin) (id : Nat) :
    BedrockAction :=
  match state with
  | .Encrypted => handleBedrockAction o id
  | _ => handleBedrockAction o id

/-! ### Event-bus guards of `handle` and `send` (claim C10) -/

/-- Result of `emit("data-in", ...)` / `emit("data-out", ...)`: either a
cancellation or a replacement argument tuple.  The replacement slots are
modelled as they arrive at runtime: the data slot may be absent
(`undefined`) or any byte array; the origin slot may be absent or any
string. -/
inductive EmitResult
  | cancelled
  | replaced (data : Option Bytes) (orig : Option String)
deriving DecidableEq

/-- JS truthiness of the replaced `data` slot: a `Uint8Array` object is
truthy even when empty; only `undefined`/`null` are falsy. -/
def truthyData : Option Bytes → Bool
  | none => false
  | some _ => true

/-- JS truthiness of the replaced origin slot: `undefined` and the empty
string are falsy. -/
def truthyOrigin : Option String → Bool
  | none => false
  | some s => !s.isEmpty

/-- How `Session.handle` leaves its guard prologue (lines 137-149). -/
inductive HandleOutcome
  | cancelled
  | returnedSilently
  | proceeds (data : Bytes) (orig : String)
deriving DecidableEq

/-- The guard prologue of `Session.handle`: stop on cancellation; then
`if (!data || !from) return;`, else proceed to the offline/online branch
with the (possibly replaced) arguments. -/
def handleGuard : EmitResult → HandleOutcome
  | .cancelled => .cancelled
  | .replaced d o =>
    if !truthyData d || !truthyOrigin o then .returnedSilently
    else .proceeds (d.getD []) (o.getD "")

/-- `Session.handle` with the downstream offline/online processing
abstracted as a state transformer `k`: the guard decides whether `k` runs
at all. -/
def handleTop (k : Bytes → String → SessionSt → SessionSt) (st : SessionSt)
    (res : EmitResult) : SessionSt × HandleOutcome :=
  match handleGuard res with
  | .cancelled => (st, .cancelled)
  | .returnedSilently => (st, .returnedSilently)
  | .proceeds d o => (k d o st, .proceeds d o)

/-- The guard prologue of `Session.send` (lines 151-167): stop on
cancellation (no error), but `throw new Error("Event error")` when the
replaced data or destination is falsy. -/
def sendGuard : EmitResult → Except String (Option (Bytes × String))
  | .cancelled => .ok none
  | .replaced d o =>
    if !truthyData d || !truthyOrigin o then .error "Event error"
    else .ok (some (d.getD [], o.getD ""))

/-- Discriminator for the duplicate-drop outcome of the split stage. -/
def SplitOutcome.isDroppedDup : SplitOutcome → Bool
  | .droppedDup _ => true
  | _ => false

/-! ### Lemmas about the reliable-window loop -/

/-- The window-advance loop runs at most once: its condition re-tests the
destructured `const start`, which the first iteration removes from the set,
so the second test is always false. -/
theorem slideLoop_once (s : Finset Nat) (w : Window) (s0 : Nat) :
    slideLoop s w s0 =
      if s0 ∈ s then (s.erase s0, ⟨w.start + 1, w.end_ + 1⟩) else (s, w) := by
  by_cases h : s0 ∈ s
  · rw [slideLoop]
    simp only [h, dif_pos, if_pos]
    rw [slideLoop]
    simp [Finset.not_mem_erase]
  · rw [slideLoop]
    simp [h]

/-! ### Lemmas about `memoryOf` slot resolution -/

theorem findMemoryIdx_eq_none_iff (l : List (Option SplitMemory)) (id : Nat) :
    findMemoryIdx l id = none ↔
      ∀ m ∈ l, ∀ mem, m = some mem → mem.id ≠ id := by
  induction l with
  | nil => simp [findMemoryIdx]
  | cons hd tl ih =>
    cases hd with
    | none => simp [findMemoryIdx, ih]
    | some m =>
      by_cases h : m.id = id
      · simp [findMemoryIdx, h]
      · simp [findMemoryIdx, h, ih]

theorem findMemoryIdx_eq_some_iff (l : List (Option SplitMemory)) (id : Nat)
    (slot : Nat) (mem : SplitMemory) :
    findMemoryIdx l id = some (slot, mem) ↔
      l[slot]? = some (some mem) ∧ mem.id = id ∧
        ∀ j < slot, ∀ m2, l[j]? = some (some m2) → m2.id ≠ id := by
  induction l generalizing slot with
  | nil => simp [findMemoryIdx]
  | cons hd tl ih =>
    cases hd with
    | none =>
      cases slot with
      | zero =>
        simp only [findMemoryIdx, Option.map_eq_some']
        constructor
        · rintro ⟨p, -, h2⟩
          have := congrArg Prod.fst h2
          simp at this
        · rintro ⟨h1, -, -⟩
          simp at h1
      | succ s =>
        simp only [findMemoryIdx, Option.map_eq_some']
        constructor
        · rintro ⟨⟨s2, m2⟩, h1, h2⟩
          simp only [Prod.mk.injEq] at h2
          obtain ⟨hs, hm⟩ := h2
          have hs2 : s2 = s := by omega
          rw [hs2, hm] at h1
          obtain ⟨g1, g2, g3⟩ := (ih s).mp h1
          refine ⟨by simpa using g1, g2, ?_⟩
          intro j hj m2 hm2
          cases j with
          | zero => simp at hm2
          | succ j2 => exact g3 j2 (by omega) m2 (by simpa using hm2)
        · rintro ⟨h1, h2, h3⟩
          refine ⟨(s, mem), (ih s).mpr ⟨by simpa using h1, h2, ?_⟩, rfl⟩
          intro j hj m2 hm2
          exact h3 (j + 1) (by omega) m2 (by simpa using hm2)
    | some m =>
      by_cases h : m.id = id
      · simp only [findMemoryIdx, if_pos h]
        cases slot with
        | zero =>
          simp only [Option.some.injEq, Prod.mk.injEq, true_and,
            List.getElem?_cons_zero]
          constructor
          · intro hm
            subst hm
            refine ⟨rfl, h, ?_⟩
            intro j hj m2 hm2
            exact absurd hj (Nat.not_lt_zero j)
          · rintro ⟨h1, -, -⟩
            exact h1
        | succ s =>
          simp only [Option.some.injEq, Prod.mk.injEq, List.getElem?_cons_succ]
          constructor
          · rintro ⟨hs, -⟩
            omega
          · rintro ⟨-, -, h3⟩
            exact absurd h (h3 0 (Nat.succ_pos s) m (by simp))
      · simp only [findMemoryIdx, if_neg h, Option.map_eq_some']
        cases slot with
        | zero =>
          constructor
          · rintro ⟨p, -, h2⟩
            have := congrArg Prod.fst h2
            simp at this
          · rintro ⟨h1, h2, -⟩
            have hm : m = mem := by
              have h3 : some (some m) = some (some mem) := by simpa using h1
              simp only [Option.some.injEq] at h3
              exact h3
            have : m.id = id := by rw [hm]; exact h2
            exact absurd this h
        | succ s =>
          constructor
          · rintro ⟨⟨s2, m2⟩, h1, h2⟩
            simp only [Prod.mk.injEq] at h2
            obtain ⟨hs, hm⟩ := h2
            have hs2 : s2 = s := by omega
            rw [hs2, hm] at h1
            obtain ⟨g1, g2, g3⟩ := (ih s).mp h1
            refine ⟨by simpa using g1, g2, ?_⟩
            intro j hj m2 hm2
            cases j with
            | zero =>
              simp only [List.getElem?_cons_zero, Option.some.injEq] at hm2
              intro hc
              rw [← hm2] at hc
              exact h hc
            | succ j2 => exact g3 j2 (by omega) m2 (by simpa using hm2)
          · rintro ⟨h1, h2, h3⟩
            refine ⟨(s, mem), (ih s).mpr ⟨by simpa using h1, h2, ?_⟩, rfl⟩
            intro j hj m2 hm2
            exact h3 (j + 1) (by omega) m2 (by simpa using hm2)

theorem findEmptyIdx_eq_none_iff (l : List (Option SplitMemory)) :
    findEmptyIdx l = none ↔ ∀ m ∈ l, m ≠ none := by
  induction l with
  | nil => simp [findEmptyIdx]
  | cons hd tl ih =>
    cases hd with
    | none => simp [findEmptyIdx]
    | some m => simp [findEmptyIdx, ih]

theorem findEmptyIdx_eq_some_iff (l : List (Option SplitMemory)) (j : Nat) :
    findEmptyIdx l = some j ↔
      l[j]? = some none ∧ ∀ i < j, l[i]? ≠ some none := by
  induction l generalizing j with
  | nil => simp [findEmptyIdx]
  | cons hd tl ih =>
    cases hd with
    | none =>
      cases j with
      | zero => simp [findEmptyIdx]
      | succ j2 =>
        constructor
        · intro h
          simp [findEmptyIdx] at h
        · rintro ⟨-, h2⟩
          exact absurd (show ((none :: tl : List (Option SplitMemory)))[0]? =
            some none by simp) (h2 0 (Nat.succ_pos j2))
    | some m =>
      cases j with
      | zero =>
        simp [findEmptyIdx]
      | succ j2 =>
        simp only [findEmptyIdx, Option.map_eq_some', List.getElem?_cons_succ]
        constructor
        · rintro ⟨i, h1, h2⟩
          have hi : i = j2 := by omega
          rw [hi] at h1
          obtain ⟨g1, g2⟩ := (ih j2).mp h1
          refine ⟨g1, ?_⟩
          intro i2 hi2
          cases i2 with
          | zero => simp
          | succ i3 => simpa using g2 i3 (by omega)
        · rintro ⟨h1, h2⟩
          refine ⟨j2, (ih j2).mpr ⟨h1, ?_⟩, rfl⟩
          intro i hi
          simpa using h2 (i + 1) (by omega)

/-- C2: the claim states that when the arriving reliable index equals
`w.start`, both window edges advance past the whole contiguous prefix of
received indices, removing each consumed index from S.  The code cannot do
this: the `while` condition re-tests the destructured `const start`, so the
loop body runs exactly once.  At window {0, 2048} with S = {1} (index 1
received earlier), an arriving index 0 leaves S = {1} and start = 1 —
the claimed result is S = ∅ and start = 2.  This theorem evaluates the
embedded code at that failing input. -/
theorem C2_window_advance_stops_after_one :
    handleReliable ⟨0, 2048⟩ {1} (some 0) = .admitted ⟨1, 2049⟩ {1} := by
  have h1 : (0 : Nat) ∉ ({1} : Finset Nat) := by decide
  simp [handleReliable, inRange, slideLoop_once, Finset.erase_insert h1]

/-- C8: for a 4-slot table, `memoryOf` fails with TooManySplits exactly
when no slot matches the requested id and every slot is occupied; a slot
matching by id is returned with the table unchanged; otherwise the first
empty slot is allocated; and the table length (hence the number of
concurrent reassemblies) never exceeds 4. -/
theorem C8_memoryOf_characterization (splits : List (Option SplitMemory))
    (id : Nat) (hlen : splits.length = 4) :
    (memoryOf splits id = .error "Too many split packets" ↔
      (∀ m ∈ splits, ∀ mem, m = some mem → mem.id ≠ id) ∧
        ∀ m ∈ splits, m ≠ none) ∧
    (∀ slot mem, splits[slot]? = some (some mem) → mem.id = id →
      (∀ j < slot, ∀ m2, splits[j]? = some (some m2) → m2.id ≠ id) →
      memoryOf splits id = .ok ((slot, mem), splits)) ∧
    ((∀ m ∈ splits, ∀ mem, m = some mem → mem.id ≠ id) →
      ∀ slot, splits[slot]? = some none → (∀ j < slot, splits[j]? ≠ some none) →
      memoryOf splits id = .ok ((slot, { id := id, packets := [] }),
        splits.set slot (some { id := id, packets := [] }))) ∧
    (∀ r, memoryOf splits id = .ok r → r.2.length = 4) := by
  refine ⟨⟨?_, ?_⟩, ?_, ?_, ?_⟩
  · intro h
    unfold memoryOf at h
    cases hf : findMemoryIdx splits id with
    | some p =>
      rw [hf] at h
      cases p with
      | mk a b => simp at h
    | none =>
      rw [hf] at h
      cases he : findEmptyIdx splits with
      | some j =>
        rw [he] at h
        simp at h
      | none =>
        exact ⟨(findMemoryIdx_eq_none_iff splits id).mp hf,
          (findEmptyIdx_eq_none_iff splits).mp he⟩
  · rintro ⟨h1, h2⟩
    have hf := (findMemoryIdx_eq_none_iff splits id).mpr h1
    have he := (findEmptyIdx_eq_none_iff splits).mpr h2
    unfold memoryOf
    rw [hf, he]
  · intro slot mem h1 h2 h3
    have hf : findMemoryIdx splits id = some (slot, mem) :=
      (findMemoryIdx_eq_some_iff splits id slot mem).mpr ⟨h1, h2, h3⟩
    unfold memoryOf
    rw [hf]
  · intro hno slot h1 h2
    have hf := (findMemoryIdx_eq_none_iff splits id).mpr hno
    have he : findEmptyIdx splits = some slot :=
      (findEmptyIdx_eq_some_iff splits slot).mpr ⟨h1, h2⟩
    unfold memoryOf
    rw [hf, he]
  · intro r hr
    unfold memoryOf at hr
    cases hf : findMemoryIdx splits id with
    | some p =>
      rw [hf] at hr
      cases p with
      | mk a b =>
        simp only [Except.ok.injEq] at hr
        rw [← hr]
        exact hlen
    | none =>
      rw [hf] at hr
      cases he : findEmptyIdx splits with
      | none =>
        rw [he] at hr
        simp at hr
      | some j =>
        rw [he] at hr
        simp only [Except.ok.injEq] at hr
        rw [← hr]
        simpa using hlen

/-! ### Split reassembly lemmas (claim C1) -/

theorem insert'_length_self (l : List EncapsulatedPacket)
    (v : EncapsulatedPacket) : insert' l l.length v = l ++ [v] := by
  induction l with
  | nil => rfl
  | cons x xs ih => simp [insert', ih]

theorem set_getElem?_self {α : Type} (l : List α) (j : Nat) (a : α)
    (h : l[j]? = some a) : l.set j a = l := by
  induction l generalizing j with
  | nil => simp at h
  | cons x xs ih =>
    cases j with
    | zero =>
      simp only [List.getElem?_cons_zero, Option.some.injEq] at h
      rw [← h]
      rfl
    | succ j2 =>
      simp only [List.getElem?_cons_succ] at h
      simp [List.set, ih j2 h]

theorem findMemoryIdx_set_some (l : List (Option SplitMemory)) (sid j : Nat)
    (mem : SplitMemory) (hno : findMemoryIdx l sid = none) (hj : j < l.length)
    (hid : mem.id = sid) :
    findMemoryIdx (l.set j (some mem)) sid = some (j, mem) := by
  apply (findMemoryIdx_eq_some_iff _ _ _ _).mpr
  refine ⟨List.getElem?_set_eq_of_lt _ hj, hid, ?_⟩
  intro i hi m2 hm2
  rw [List.getElem?_set_ne (by omega)] at hm2
  exact (findMemoryIdx_eq_none_iff l sid).mp hno (some m2)
    (List.mem_iff_getElem?.mpr ⟨i, hm2⟩) m2 rfl

/-- One split step on a table whose slot `j` already holds the split set:
the fragment with index = number of stored fragments is appended; the set
completes exactly when the new count reaches `cnt`. -/
theorem handleSplitStep_found (t : List (Option SplitMemory)) (sid j cnt : Nat)
    (mem : SplitMemory) (f : EncapsulatedPacket)
    (hfind : findMemoryIdx t sid = some (j, mem)) :
    handleSplitStep t f ⟨sid, mem.packets.length, cnt⟩ =
      if mem.packets.length + 1 ≠ cnt then
        .stored (t.set j (some { mem with packets := mem.packets ++ [f] }))
      else
        .completed
          ((t.set j (some { mem with packets := mem.packets ++ [f] })).set j
            none)
          { f with
            sub := ((mem.packets ++ [f]).map (fun p => p.sub)).flatten,
            split := none } := by
  by_cases hc : mem.packets.length + 1 = cnt
  · simp [handleSplitStep, memoryOf, hfind, insert'_length_self, hc]
  · simp [handleSplitStep, memoryOf, hfind, insert'_length_self, hc]

/-- One split step on a table with no slot for `sid` and first empty slot
`j`: a fresh slot is allocated and the fragment with index 0 stored. -/
theorem handleSplitStep_alloc (t : List (Option SplitMemory)) (sid j cnt : Nat)
    (f : EncapsulatedPacket) (hno : findMemoryIdx t sid = none)
    (hempty : findEmptyIdx t = some j) :
    handleSplitStep t f ⟨sid, 0, cnt⟩ =
      if 1 ≠ cnt then .stored (t.set j (some ⟨sid, [f]⟩))
      else
        .completed ((t.set j (some ⟨sid, [f]⟩)).set j none)
          { f with
            sub := ([f].map (fun p => p.sub)).flatten,
            split := none } := by
  by_cases hc : (1 : Nat) = cnt
  · simp [handleSplitStep, memoryOf, hno, hempty, insert', List.set_set, hc]
  · simp [handleSplitStep, memoryOf, hno, hempty, insert', List.set_set, hc]

/-- Induction step for in-order reassembly: once the slot is allocated and
holds the first `stored.length` fragments, delivering the remaining
fragments in index order completes the set, concatenates all subs, and
restores the table to its original contents. -/
theorem deliver_loop (splits0 : List (Option SplitMemory)) (sid n j : Nat)
    (hnomatch : findMemoryIdx splits0 sid = none)
    (hjn : splits0[j]? = some none) :
    ∀ (suf stored : List EncapsulatedPacket),
      stored ≠ [] → suf ≠ [] →
      stored.length + suf.length = n →
      (∀ i < suf.length, ∀ p, suf[i]? = some p →
        p.split = some ⟨sid, stored.length + i, n⟩) →
      ∃ q, deliverSplitList (splits0.set j (some ⟨sid, stored⟩)) suf =
          .ok (splits0, [q]) ∧
        q.sub = ((stored ++ suf).map (fun p => p.sub)).flatten ∧
        q.split = none := by
  intro suf
  induction suf with
  | nil =>
    intro stored h1 h2
    exact absurd rfl h2
  | cons f rest ih =>
    intro stored hst hne hlen hidx
    have hjlt : j < splits0.length := (List.getElem?_eq_some.mp hjn).1
    have hfind : findMemoryIdx (splits0.set j (some ⟨sid, stored⟩)) sid =
        some (j, ⟨sid, stored⟩) :=
      findMemoryIdx_set_some splits0 sid j ⟨sid, stored⟩ hnomatch hjlt rfl
    have hf0 : f.split = some ⟨sid, stored.length, n⟩ := by
      have := hidx 0 (by simp) f (by simp)
      simpa using this
    have hstep := handleSplitStep_found (splits0.set j (some ⟨sid, stored⟩))
      sid j n ⟨sid, stored⟩ f hfind
    dsimp only at hstep
    cases rest with
    | nil =>
      have hn : stored.length + 1 = n := by simpa using hlen
      rw [if_neg (by omega)] at hstep
      simp only [deliverSplitList, hf0, hstep]
      refine ⟨{ f with
        sub := ((stored ++ [f]).map (fun p => p.sub)).flatten,
        split := none }, ?_, rfl, rfl⟩
      have htab :
          (((splits0.set j (some ⟨sid, stored⟩)).set j
            (some { id := sid, packets := stored ++ [f] })).set j none) =
            splits0 := by
        rw [List.set_set, List.set_set]
        exact set_getElem?_self splits0 j none hjn
      rw [htab]
    | cons g rs =>
      have hlt : stored.length + 1 < n := by
        simp only [List.length_cons] at hlen
        omega
      rw [if_pos (by omega)] at hstep
      simp only [deliverSplitList, hf0, hstep]
      have htab :
          ((splits0.set j (some ⟨sid, stored⟩)).set j
            (some { id := sid, packets := stored ++ [f] })) =
            splits0.set j (some ⟨sid, stored ++ [f]⟩) := by
        rw [List.set_set]
      rw [htab]
      have hidx2 : ∀ i < (g :: rs).length, ∀ p, (g :: rs)[i]? = some p →
          p.split = some ⟨sid, (stored ++ [f]).length + i, n⟩ := by
        intro i hi p hp
        have := hidx (i + 1) (by simpa using Nat.succ_lt_succ hi) p
          (by simpa using hp)
        rw [this]
        simp only [List.length_append, List.length_cons, List.length_nil]
        congr 2
        omega
      have hlen2 : (stored ++ [f]).length + (g :: rs).length = n := by
        simp only [List.length_append, List.length_cons, List.length_nil]
          at hlen ⊢
        omega
      obtain ⟨q, hq1, hq2, hq3⟩ := ih (stored ++ [f]) (by simp) (by simp)
        hlen2 hidx2
      refine ⟨q, hq1, ?_, hq3⟩
      rw [hq2]
      congr 1
      rw [← List.append_cons]

/-- C1 (amended): when the `count` fragments of a split set arrive in
increasing split-index order, each exactly once, into a table with no slot
for their id and at least one empty slot, the set completes: the
reassembled packet's `sub` is the concatenation of the fragment payloads in
split-index order, its split descriptor is cleared, and the table returns
to its original contents (the slot is freed). -/
theorem C1_inorder_reassembly (splits0 : List (Option SplitMemory))
    (sid j : Nat) (frags : List EncapsulatedPacket) (hne : frags ≠ [])
    (hsplit : ∀ i < frags.length, ∀ p, frags[i]? = some p →
      p.split = some ⟨sid, i, frags.length⟩)
    (hnomatch : findMemoryIdx splits0 sid = none)
    (hempty : findEmptyIdx splits0 = some j) :
    ∃ q, deliverSplitList splits0 frags = .ok (splits0, [q]) ∧
      q.sub = (frags.map (fun p => p.sub)).flatten ∧
      q.split = none := by
  obtain ⟨hjn, -⟩ := (findEmptyIdx_eq_some_iff splits0 j).mp hempty
  cases frags with
  | nil => exact absurd rfl hne
  | cons f rest =>
    have hf0 : f.split = some ⟨sid, 0, (f :: rest).length⟩ := by
      have := hsplit 0 (by simp) f (by simp)
      simpa using this
    have hstep := handleSplitStep_alloc splits0 sid j (f :: rest).length f
      hnomatch hempty
    cases rest with
    | nil =>
      rw [if_neg (by simp)] at hstep
      simp only [deliverSplitList, hf0, hstep]
      have htab : ((splits0.set j (some ⟨sid, [f]⟩)).set j none) = splits0 := by
        rw [List.set_set]
        exact set_getElem?_self splits0 j none hjn
      rw [htab]
      exact ⟨{ f with
        sub := ([f].map (fun p => p.sub)).flatten,
        split := none }, rfl, rfl, rfl⟩
    | cons g rs =>
      rw [if_pos (by simp only [List.length_cons]; omega)] at hstep
      simp only [deliverSplitList, hf0, hstep]
      have hidx2 : ∀ i < (g :: rs).length, ∀ p, (g :: rs)[i]? = some p →
          p.split = some ⟨sid, ([f] : List EncapsulatedPacket).length + i,
            (f :: g :: rs).length⟩ := by
        intro i hi p hp
        have := hsplit (i + 1)
          (by simp only [List.length_cons] at hi ⊢; omega) p
          (by simpa using hp)
        rw [this]
        congr 2
        simp only [List.length_cons, List.length_nil]
        omega
      have hlen2 : ([f] : List EncapsulatedPacket).length +
          (g :: rs).length = (f :: g :: rs).length := by
        simp only [List.length_cons, List.length_nil]
        omega
      obtain ⟨q, h1, h2, h3⟩ := deliver_loop splits0 sid (f :: g :: rs).length
        j hnomatch hjn (g :: rs) [f] (by simp) (by simp) hlen2 hidx2
      exact ⟨q, h1, by simpa using h2, h3⟩

/-- Witness for C1 at a concrete two-fragment split set delivered in
index order into an empty 4-slot table. -/
theorem C1_inorder_reassembly_witness :
    ∃ q, deliverSplitList [none, none, none, none]
        [{ reliability := 0, split := some ⟨5, 0, 2⟩, sub := [1, 2] },
         { reliability := 0, split := some ⟨5, 1, 2⟩, sub := [3] }] =
      .ok ([none, none, none, none], [q]) ∧
      q.sub = (([{ reliability := 0, split := some ⟨5, 0, 2⟩, sub := [1, 2] },
        { reliability := 0, split := some ⟨5, 1, 2⟩, sub := [3] }] :
          List EncapsulatedPacket).map (fun p => p.sub)).flatten ∧
      q.split = none :=
  C1_inorder_reassembly [none, none, none, none] 5 0
    [{ reliability := 0, split := some ⟨5, 0, 2⟩, sub := [1, 2] },
     { reliability := 0, split := some ⟨5, 1, 2⟩, sub := [3] }]
    (by simp)
    (by intro i hi p hp
        match i, hi with
        | 0, _ => simp at hp; subst hp; rfl
        | 1, _ => simp at hp; subst hp; rfl)
    rfl rfl

/-- C1 counterexample: the claim promises that with fragments delivered in
any order, possibly duplicated, a fragment whose index slot is already
present is dropped and completion concatenates the payloads in split-index
order.  Delivering the same split-index 1 twice (count 2) into an empty
table refutes this: the duplicate is NOT dropped (`insert` splices it in,
because the JS check `packets[index]` inspects position 1 of a one-element
array), the set "completes" without any index-0 fragment ever arriving,
and the resulting sub [9, 8] is the concatenation of two copies of the
same split index. -/
theorem C1_counterexample :
    deliverSplitList [none, none, none, none]
        [{ reliability := 0, split := some ⟨7, 1, 2⟩, sub := [9] },
         { reliability := 0, split := some ⟨7, 1, 2⟩, sub := [8] }] =
      .ok ([none, none, none, none],
        [{ reliability := 0, split := none, sub := [9, 8] }]) ∧
    (handleSplitStep
        [some ⟨7, [{ reliability := 0, split := some ⟨7, 1, 2⟩, sub := [9] }]⟩,
          none, none, none]
        { reliability := 0, split := some ⟨7, 1, 2⟩, sub := [8] }
        ⟨7, 1, 2⟩).isDroppedDup = false := by
  constructor
  · rfl
  · rfl

/-! ### Outbound fragmentation lemmas (claim C3) -/

/-- The split descriptor carried by an output event. -/
def evSplitIdx : OutEvent → Option Nat
  | .ackOut _ _ => none
  | .datagramOut _ _ p _ => p.split.map (fun s => s.index)

theorem fragSizes_eq (L m : Nat) :
    fragSizes L m = List.replicate (L / m) m ++ [L % m] := by
  unfold fragSizes
  rw [List.range_succ, List.map_append]
  congr 1
  · have h : ∀ i ∈ List.range (L / m),
        (if i = L / m then L % m else m) = Function.const Nat m i := by
      intro i hi
      rw [List.mem_range] at hi
      simp [Nat.ne_of_lt hi]
    rw [List.map_congr_left h, List.map_const, List.length_range]
  · simp

theorem fragSizes_sum (L m : Nat) : (fragSizes L m).sum = L := by
  rw [fragSizes_eq]
  simp only [List.sum_append, List.sum_replicate, smul_eq_mul, List.sum_cons,
    List.sum_nil, Nat.add_zero]
  rw [Nat.mul_comm]
  exact Nat.div_add_mod L m

theorem readChunks_length (sizes : List Nat) :
    ∀ b : Bytes, (readChunks b sizes).length = sizes.length := by
  induction sizes with
  | nil => intro b; rfl
  | cons s rest ih => intro b; simp [readChunks, ih]

theorem readChunks_map_length (sizes : List Nat) :
    ∀ b : Bytes, sizes.sum ≤ b.length →
      (readChunks b sizes).map List.length = sizes := by
  induction sizes with
  | nil => intro b h; rfl
  | cons s rest ih =>
    intro b h
    simp only [List.sum_cons] at h
    simp only [readChunks, List.map_cons]
    have h1 : (List.take s b).length = s := by simp; omega
    rw [h1, ih (b.drop s) (by simp; omega)]

theorem readChunks_flatten (sizes : List Nat) :
    ∀ b : Bytes, b.length ≤ sizes.sum →
      (readChunks b sizes).flatten = b := by
  induction sizes with
  | nil =>
    intro b h
    simp only [List.sum_nil, Nat.le_zero, List.length_eq_zero] at h
    rw [h]
    rfl
  | cons s rest ih =>
    intro b h
    simp only [List.sum_cons] at h
    simp only [readChunks, List.flatten_cons]
    rw [ih (b.drop s) (by simp; omega)]
    exact List.take_append_drop s b

theorem sendLoop_map_evSub (reliability : Nat)
    (sequence order : Option Nat) (splitBase : Option (Nat × Nat))
    (dest : Origin) :
    ∀ (ps : List (Nat × Bytes)) (st : SessionSt),
      ((sendLoop st reliability sequence order splitBase dest ps).2).map
        evSub = ps.map Prod.snd := by
  intro ps
  induction ps with
  | nil => intro st; rfl
  | cons p rest ih =>
    intro st
    cases p with
    | mk i sub =>
      cases dest <;> simp [sendLoop, evSub, ih]

theorem sendLoop_map_evSplitIdx (reliability : Nat)
    (sequence order : Option Nat) (splitBase : Option (Nat × Nat))
    (dest : Origin) :
    ∀ (ps : List (Nat × Bytes)) (st : SessionSt),
      ((sendLoop st reliability sequence order splitBase dest ps).2).map
        evSplitIdx = ps.map (fun p => splitBase.map (fun _ => p.1)) := by
  intro ps
  induction ps with
  | nil => intro st; rfl
  | cons p rest ih =>
    intro st
    cases p with
    | mk i sub =>
      cases dest <;> cases splitBase <;>
        simp [sendLoop, evSplitIdx, ih]

theorem sendLoop_no_ack (reliability : Nat)
    (sequence order : Option Nat) (splitBase : Option (Nat × Nat))
    (dest : Origin) :
    ∀ (ps : List (Nat × Bytes)) (st : SessionSt),
      ∀ e ∈ (sendLoop st reliability sequence order splitBase dest ps).2,
        isAckEvent e = false := by
  intro ps
  induction ps with
  | nil =>
    intro st e he
    simp [sendLoop] at he
  | cons p rest ih =>
    intro st e he
    cases p with
    | mk i sub =>
      cases dest <;>
        (simp only [sendLoop, List.mem_cons] at he
         rcases he with h | h
         · rw [h]; rfl
         · exact ih _ e h)

theorem enum_map_some_fst (l : List Bytes) :
    l.enum.map (fun p => some p.1) = (List.range l.length).map some := by
  rw [show (fun p : Nat × Bytes => some p.1) = (some ∘ Prod.fst) from rfl,
    ← List.map_map, List.enum_map_fst]

theorem enum_map_none (l : List Bytes) :
    l.enum.map (fun p => (none : Option Nat)) =
      List.replicate l.length none := by
  rw [show (fun p : Nat × Bytes => (none : Option Nat)) =
    Function.const (Nat × Bytes) none from rfl, List.map_const,
    List.enum_length]

/-- C3: with maxPayload = mtuSize - 60 positive, `sendPacket` on a payload
of length L emits exactly L / maxPayload + 1 fragments, of sizes
[maxPayload, ..., maxPayload, L mod maxPayload] (the last empty when
L mod maxPayload = 0); the concatenation of the fragment sub-payloads in
emission order — which is split-index order, as the fourth conjunct shows —
equals the original payload. -/
theorem C3_sendPacket_fragmentation (st : SessionSt)
    (packet : EncapsulatedPacket) (dest : Origin)
    (h : 60 < st._mtuSize) :
    ((sendPacket st packet dest).2).length =
        packet.sub.length / (st._mtuSize - 60) + 1 ∧
    ((sendPacket st packet dest).2).map (fun e => (evSub e).length) =
        List.replicate (packet.sub.length / (st._mtuSize - 60))
          (st._mtuSize - 60) ++ [packet.sub.length % (st._mtuSize - 60)] ∧
    (((sendPacket st packet dest).2).map evSub).flatten = packet.sub ∧
    ((sendPacket st packet dest).2).map evSplitIdx =
        (if 1 < packet.sub.length / (st._mtuSize - 60) + 1 then
          (List.range (packet.sub.length / (st._mtuSize - 60) + 1)).map some
        else [none]) := by
  have hfs_len : (fragSizes packet.sub.length (st._mtuSize - 60)).length =
      packet.sub.length / (st._mtuSize - 60) + 1 := by
    unfold fragSizes
    rw [List.length_map, List.length_range]
  have hbl : (readChunks packet.sub
      (fragSizes packet.sub.length (st._mtuSize - 60))).length =
      packet.sub.length / (st._mtuSize - 60) + 1 := by
    rw [readChunks_length, hfs_len]
  have keySub : ((sendPacket st packet dest).2).map evSub =
      readChunks packet.sub
        (fragSizes packet.sub.length (st._mtuSize - 60)) := by
    unfold sendPacket
    cases dest <;>
      by_cases hb : 1 < (readChunks packet.sub
        (fragSizes packet.sub.length (st._mtuSize - 60))).length <;>
      simp [hb, sendLoop_map_evSub, List.enum_map_snd]
  have keyIdx : ((sendPacket st packet dest).2).map evSplitIdx =
      (if 1 < (readChunks packet.sub
          (fragSizes packet.sub.length (st._mtuSize - 60))).length then
        (List.range (readChunks packet.sub
          (fragSizes packet.sub.length (st._mtuSize - 60))).length).map some
      else List.replicate (readChunks packet.sub
        (fragSizes packet.sub.length (st._mtuSize - 60))).length none) := by
    unfold sendPacket
    cases dest <;>
      by_cases hb : 1 < (readChunks packet.sub
        (fragSizes packet.sub.length (st._mtuSize - 60))).length <;>
      simp [hb, sendLoop_map_evSplitIdx, enum_map_some_fst, enum_map_none]
  refine ⟨?_, ?_, ?_, ?_⟩
  · have := congrArg List.length keySub
    rw [List.length_map] at this
    rw [this, hbl]
  · have : ((sendPacket st packet dest).2).map (fun e => (evSub e).length) =
        (((sendPacket st packet dest).2).map evSub).map List.length := by
      rw [List.map_map]
      rfl
    rw [this, keySub, readChunks_map_length _ _ (le_of_eq (fragSizes_sum ..)),
      fragSizes_eq]
  · rw [keySub, readChunks_flatten _ _ (le_of_eq (fragSizes_sum ..).symm)]
  · rw [keyIdx, hbl]
    by_cases hb : 1 < packet.sub.length / (st._mtuSize - 60) + 1
    · simp [hb]
    · rw [Nat.not_lt] at hb
      have h0 : packet.sub.length / (st._mtuSize - 60) = 0 :=
        Nat.le_zero.mp (Nat.succ_le_succ_iff.mp hb)
      simp [h0]

/-- Witness for C3: mtu 63 (maxPayload 3), 7-byte payload: the
re-fragmented sub-payloads concatenate back to the original. -/
theorem C3_sendPacket_fragmentation_witness :
    (((sendPacket { _mtuSize := 63 }
        { reliability := 0, sub := [1, 2, 3, 4, 5, 6, 7] } .server).2).map
      evSub).flatten = [1, 2, 3, 4, 5, 6, 7] :=
  (C3_sendPacket_fragmentation { _mtuSize := 63 }
    { reliability := 0, sub := [1, 2, 3, 4, 5, 6, 7] } .server
    (by decide)).2.2.1

/-! ### ACK emission (claim C7) -/

theorem sendPacket_no_ack (st : SessionSt) (p : EncapsulatedPacket)
    (dest : Origin) :
    ∀ e ∈ (sendPacket st p dest).2, isAckEvent e = false := by
  intro e he
  simp only [sendPacket] at he
  exact sendLoop_no_ack _ _ _ _ _ _ _ e he

theorem handlePacket_no_ack (bt : Origin → Bytes → Bytes) (st : SessionSt)
    (p : EncapsulatedPacket) (o : Origin) :
    ∀ r, handlePacket bt st p o = .ok r →
      ∀ e ∈ r.2, isAckEvent e = false := by
  intro r hr e he
  simp only [handlePacket] at hr
  split at hr
  · exact absurd hr (by simp)
  · exact absurd hr (by simp)
  · simp only [Except.ok.injEq] at hr
    rw [← hr] at he
    simp at he
  · split at hr
    · exact absurd hr (by simp)
    · simp only [Except.ok.injEq] at hr
      rw [← hr] at he
      simp at he
    · simp only [Except.ok.injEq] at hr
      rw [← hr] at he
      exact sendPacket_no_ack _ _ _ e he

theorem handlePackets_no_ack (bt : Origin → Bytes → Bytes) (o : Origin) :
    ∀ (ps : List EncapsulatedPacket) (st : SessionSt),
      ∀ e ∈ (handlePackets bt st ps o).1, isAckEvent e = false := by
  intro ps
  induction ps with
  | nil =>
    intro st e he
    simp [handlePackets] at he
  | cons p rest ih =>
    intro st e he
    simp only [handlePackets] at he
    split at he
    · simp at he
    · rename_i st1 evs heq
      simp only [List.mem_append] at he
      rcases he with h | h
      · exact handlePacket_no_ack bt st p o (st1, evs) heq e h
      · exact ih _ e h

/-- C7: every inbound datagram with sequence number s from origin o
produces, as the very first output, one ACK carrying the single sequence
number s toward the same origin o, and that is the only ACK in the entire
output of handling the datagram (the per-packet processing emits only
datagrams, toward the opposite side). -/
theorem C7_datagram_acked_first_and_once (bt : Origin → Bytes → Bytes)
    (st : SessionSt) (d : Datagram) (o : Origin) :
    ((handleDatagram bt st d o).1).head? =
      some (.ackOut [d.seqNumber] o) ∧
    ((handleDatagram bt st d o).1).filter isAckEvent =
      [.ackOut [d.seqNumber] o] := by
  constructor
  · rfl
  · show (OutEvent.ackOut [d.seqNumber] o ::
      (handlePackets bt st d.packets o).1).filter isAckEvent = _
    rw [List.filter_cons]
    simp only [isAckEvent, if_true]
    rw [List.filter_eq_nil_iff.mpr]
    intro e he
    rw [handlePackets_no_ack bt o d.packets st e he]
    simp

/-- C4: after a ServerHandshakePacket is intercepted (with a key pair
stored at Login), `serverBatch` holds the codec built from the secret
derived from the proxy's private key, the server's `x5u` key and the
server's salt; the outbound token's payload salt equals the stored
`_salt`; and the state is Encrypted. -/
theorem C4_handshake_interception (dh : DHArgs → Bytes)
    (sig : KeyPair → JWTHeader × JWTPayload → String) (st : CryptoSt)
    (handshake : JWT) (kp : KeyPair) (hkp : st._keyPair = some kp) :
    ∃ st2 out, handleHandshakePacket dh sig st handshake = .ok (st2, out) ∧
      st2._serverBatch = some (EncryptedBatchPacket
        (dh ⟨kp.privateKey, handshake.header.x5u, handshake.payload.salt⟩)
        .server) ∧
      out.payload.salt = st._salt ∧
      st2._state = .Encrypted := by
  unfold handleHandshakePacket
  rw [hkp]
  exact ⟨_, _, rfl, rfl, rfl, rfl⟩

/-- Witness for C4 at concrete primitives and session fields. -/
theorem C4_handshake_interception_witness :
    ∃ st2 out, handleHandshakePacket (fun _ => [1]) (fun _ _ => "sig")
        { _keyPair := some ⟨"p", "P"⟩, _salt := "s" }
        { header := { x5u := "X" }, payload := { salt := "S" } } =
      .ok (st2, out) ∧
      st2._serverBatch = some (EncryptedBatchPacket [1] .server) ∧
      out.payload.salt = "s" ∧
      st2._state = .Encrypted :=
  C4_handshake_interception (fun _ => [1]) (fun _ _ => "sig")
    { _keyPair := some ⟨"p", "P"⟩, _salt := "s" }
    { header := { x5u := "X" }, payload := { salt := "S" } }
    ⟨"p", "P"⟩ rfl

/-- A concrete cipher model for the C5 instances: identity ciphertext,
empty final block (as Node GCM ciphers return), and the 16-byte tag
AES-256-GCM produces. -/
def gcmCipherModel : NodeCipher where
  update := fun d => d
  final := []
  getAuthTag := List.replicate 16 0

/-- C5 (amended): the encrypt helper keys AES-256-GCM with key = the
base64-decoded secret and IV = its first 16 bytes, but its output is the
ciphertext alone — `cipher.final()` is empty for GCM and `getAuthTag()` is
never called, so no tag is appended. -/
theorem C5_encrypt_key_iv_no_tag (createCipheriv : Bytes → Bytes → NodeCipher)
    (fromB64 : String → Bytes) (req : EncryptRequest)
    (hfin : (createCipheriv (fromB64 req.secret)
      ((fromB64 req.secret).take 16)).final = [])
    (htag : (createCipheriv (fromB64 req.secret)
      ((fromB64 req.secret).take 16)).getAuthTag ≠ []) :
    encryptLine createCipheriv fromB64 req =
      (createCipheriv (fromB64 req.secret)
        ((fromB64 req.secret).take 16)).update req.data ∧
    encryptLine createCipheriv fromB64 req ≠
      (createCipheriv (fromB64 req.secret)
        ((fromB64 req.secret).take 16)).update req.data ++
      (createCipheriv (fromB64 req.secret)
        ((fromB64 req.secret).take 16)).getAuthTag := by
  have h1 : encryptLine createCipheriv fromB64 req =
      (createCipheriv (fromB64 req.secret)
        ((fromB64 req.secret).take 16)).update req.data := by
    simp only [encryptLine]
    rw [hfin, List.append_nil]
  refine ⟨h1, ?_⟩
  rw [h1]
  intro hc
  have hlen := congrArg List.length hc
  rw [List.length_append] at hlen
  exact htag (List.eq_nil_of_length_eq_zero (by omega))

/-- Witness for C5 with a concrete cipher model (identity ciphertext,
16-byte tag, as AES-256-GCM produces). -/
theorem C5_encrypt_key_iv_no_tag_witness :
    encryptLine (fun _ _ => gcmCipherModel) (fun _ => [2, 3])
      { data := [1], secret := "" } = [1] :=
  (C5_encrypt_key_iv_no_tag (fun _ _ => gcmCipherModel) (fun _ => [2, 3])
    { data := [1], secret := "" } rfl (by decide)).1

/-- C5 counterexample: with any cipher whose (16-byte) GCM tag is
nonempty, the helper's output is the bare ciphertext, not
ciphertext ++ tag as the claim states. -/
theorem C5_counterexample :
    encryptLine (fun _ _ => gcmCipherModel) (fun _ => [2, 3])
      { data := [1], secret := "" } = [1] ∧
    ([1] : Bytes) ≠ [1] ++ gcmCipherModel.getAuthTag := by
  exact ⟨rfl, by decide⟩

/-- C6 (amended): `handleBedrock` consults no session state: whatever the
state (including Encrypted), a LoginPacket from the client and a
ServerHandshakePacket from the server are intercepted and processed, never
dropped for a state mismatch; `handleBatch` dispatches on the state only to
pick the batch codec. -/
theorem C6_bedrock_no_state_guard (state : SessionState) (o : Origin)
    (id : Nat) :
    batchBedrockAction state o id = handleBedrockAction o id ∧
    batchBedrockAction state .client LoginPacket.id = .interceptLogin ∧
    batchBedrockAction state .server ServerHandshakePacket.id =
      .interceptHandshake := by
  refine ⟨?_, ?_, ?_⟩ <;> cases state <;> rfl

/-- C6 counterexample: in the Encrypted state (which is not Online), a
client LoginPacket and a server ServerHandshakePacket are still
intercepted — the claim says they would be dropped. -/
theorem C6_counterexample :
    batchBedrockAction .Encrypted .client LoginPacket.id =
      .interceptLogin ∧
    batchBedrockAction .Encrypted .server ServerHandshakePacket.id =
      .interceptHandshake :=
  ⟨rfl, rfl⟩

/-- C10 (amended): if a data-in replacement's data is undefined, or its
origin is undefined or the empty string, `handle` returns silently
(state unchanged, nothing forwarded, for every downstream continuation)
while `send` under the same condition throws the fatal "Event error".
An empty-but-present data array is truthy in JS, so it does not trigger
either guard. -/
theorem C10_falsy_replacement_guards (d : Option Bytes) (o : Option String)
    (k : Bytes → String → SessionSt → SessionSt) (st : SessionSt)
    (h : truthyData d = false ∨ truthyOrigin o = false) :
    handleTop k st (.replaced d o) = (st, .returnedSilently) ∧
    sendGuard (.replaced d o) = .error "Event error" := by
  have hg : (!truthyData d || !truthyOrigin o) = true := by
    rcases h with h | h <;> simp [h]
  constructor
  · simp [handleTop, handleGuard, hg]
  · simp [sendGuard, hg]

/-- Witness for C10: an undefined data slot with a valid origin. -/
theorem C10_falsy_replacement_guards_witness :
    handleTop (fun _ _ st => st) ({} : SessionSt)
        (.replaced none (some "client")) =
      (({} : SessionSt), .returnedSilently) ∧
    sendGuard (.replaced none (some "client")) = .error "Event error" :=
  C10_falsy_replacement_guards none (some "client") (fun _ _ st => st)
    ({} : SessionSt) (Or.inl rfl)

/-- C10 counterexample: an empty (but defined) Uint8Array is truthy, so
`handle` proceeds instead of returning silently and `send` does not throw
— the claim's "empty ... data" case is wrong on the code. -/
theorem C10_counterexample :
    handleGuard (.replaced (some []) (some "client")) =
      .proceeds [] "client" ∧
    sendGuard (.replaced (some []) (some "client")) =
      .ok (some ([], "client")) := by
  constructor <;> rfl

/-! ### Datagram codec round-trip (claim C9) -/

theorem parsePackets_flatten
    (parse : Bytes → Option (EncapsulatedPacket × Bytes))
    (ser : EncapsulatedPacket → Bytes)
    (hser : ∀ b p rest, parse b = some (p, rest) → ser p ++ rest = b) :
    ∀ (fuel : Nat) (b : Bytes) (pkts : List EncapsulatedPacket),
      parsePackets parse fuel b = some pkts →
      (pkts.map ser).flatten = b := by
  intro fuel
  induction fuel with
  | zero =>
    intro b pkts h
    cases b with
    | nil =>
      simp only [parsePackets, Option.some.injEq] at h
      rw [← h]
      rfl
    | cons x xs => simp [parsePackets] at h
  | succ fu ih =>
    intro b pkts h
    cases b with
    | nil =>
      simp only [parsePackets, Option.some.injEq] at h
      rw [← h]
      rfl
    | cons x xs =>
      simp only [parsePackets] at h
      cases hp : parse (x :: xs) with
      | none => rw [hp] at h; simp at h
      | some pr =>
        rw [hp] at h
        cases pr with
        | mk p rest2 =>
          simp only [Option.map_eq_some'] at h
          obtain ⟨ps, h1, h2⟩ := h
          rw [← h2]
          simp only [List.map_cons, List.flatten_cons]
          rw [ih rest2 ps h1]
          exact hser (x :: xs) p rest2 hp

/-- C9 (amended): for every byte sequence whose first byte has the 0x80
"valid" flag set and which `Datagram.from` parses successfully (with a
packet codec satisfying the serialize-after-parse contract), `Datagram.to`
reproduces the original bytes.  Without the flag bit the round-trip fails,
because `to` writes `flag_valid | headerFlags` (see the counterexample). -/
theorem C9_datagram_roundtrip
    (parse : Bytes → Option (EncapsulatedPacket × Bytes))
    (ser : EncapsulatedPacket → Bytes) (bytes : Bytes) (d : Datagram)
    (hser : ∀ b p rest, parse b = some (p, rest) → ser p ++ rest = b)
    (hbytes : ∀ x ∈ bytes, x < 256)
    (hflag : 128 ||| d.headerFlags = d.headerFlags)
    (hparse : datagramFrom parse bytes = some d) :
    datagramTo ser d = bytes := by
  cases bytes with
  | nil => simp [datagramFrom, readByte] at hparse
  | cons f r1 =>
    cases r1 with
    | nil => simp [datagramFrom, readByte, readLTriad] at hparse
    | cons b1 r2 =>
      cases r2 with
      | nil => simp [datagramFrom, readByte, readLTriad] at hparse
      | cons b2 r3 =>
        cases r3 with
        | nil => simp [datagramFrom, readByte, readLTriad] at hparse
        | cons b3 rest =>
          simp only [datagramFrom, readByte, readLTriad,
            Option.map_eq_some'] at hparse
          obtain ⟨pkts, hp, hd⟩ := hparse
          subst hd
          have hfb : f < 256 := hbytes f (by simp)
          have h1 : b1 < 256 := hbytes b1 (by simp)
          have h2 : b2 < 256 := hbytes b2 (by simp)
          have h3 : b3 < 256 := hbytes b3 (by simp)
          have hf : (128 ||| f) % 256 = f := by
            rw [show (128 ||| f) = f from hflag]
            exact Nat.mod_eq_of_lt hfb
          have hn1 : (b1 + 256 * b2 + 65536 * b3) % 256 = b1 := by omega
          have hn2 : (b1 + 256 * b2 + 65536 * b3) / 256 % 256 = b2 := by
            omega
          have hn3 : (b1 + 256 * b2 + 65536 * b3) / 65536 % 256 = b3 := by
            omega
          have hfl := parsePackets_flatten parse ser hser rest.length rest
            pkts hp
          simp only [datagramTo, writeByte, writeLTriad, flag_valid]
          rw [hf, hn1, hn2, hn3, hfl]
          rfl

/-- C9 counterexample: the bytes [0x00, 0, 0, 0] (flags byte without the
0x80 bit) parse successfully, but re-serializing writes
`flag_valid | headerFlags`, producing [0x80, 0, 0, 0] ≠ the input.  The
packet codec used is a one-byte-per-packet codec (irrelevant here: the
packet list is empty). -/
theorem C9_counterexample :
    datagramFrom (fun b => match b with
      | x :: rest => some ({ reliability := x }, rest)
      | [] => none) [0, 0, 0, 0] =
      some { headerFlags := 0, seqNumber := 0, packets := [] } ∧
    datagramTo (fun p => [p.reliability])
      { headerFlags := 0, seqNumber := 0, packets := [] } = [128, 0, 0, 0] ∧
    ([128, 0, 0, 0] : Bytes) ≠ [0, 0, 0, 0] := by
  refine ⟨rfl, rfl, by decide⟩

/-- Witness for C9: a five-byte datagram with the valid flag set and one
one-byte packet round-trips. -/
theorem C9_datagram_roundtrip_witness :
    datagramTo (fun p => [p.reliability])
      { headerFlags := 128, seqNumber := 1, packets := [{ reliability := 5 }] }
      = [128, 1, 0, 0, 5] :=
  C9_datagram_roundtrip
    (fun b => match b with
      | x :: rest => some ({ reliability := x }, rest)
      | [] => none)
    (fun p => [p.reliability]) [128, 1, 0, 0, 5]
    { headerFlags := 128, seqNumber := 1, packets := [{ reliability := 5 }] }
    (by intro b p rest h
        cases b with
        | nil => simp at h
        | cons x xs =>
          simp only [Option.some.injEq, Prod.mk.injEq] at h
          obtain ⟨h1, h2⟩ := h
          rw [← h1, ← h2]
          rfl)
    (by decide) (by decide) rfl

/-- Witness for C8 at a concrete full table with no matching id. -/
theorem C8_memoryOf_witness :
    memoryOf [some ⟨0, []⟩, some ⟨1, []⟩, some ⟨2, []⟩, some ⟨3, []⟩] 9 =
      .error "Too many split packets" :=
  ((C8_memoryOf_characterization
    [some ⟨0, []⟩, some ⟨1, []⟩, some ⟨2, []⟩, some ⟨3, []⟩] 9 rfl).1).mpr
    (by decide)

end Saurus
